import Mathlib

/-!
# Verification of `numkit.timeseries`

A shallow embedding, in exact rational arithmetic, of the time-series module
(`autocorrelation_fft`, `tcorrel`, `smooth`, `smoothing_window_length`).

Modelling conventions, fixed once for the whole file:

* numpy floating point values are modelled as exact rationals (`ℚ`); all the
  arithmetic performed by the module is field arithmetic, so every operation is
  representable exactly.
* The source is Python-2 era code: `/` between integers (`ac.shape[0]/2`,
  `(window_len-1)/2`) is integer floor division and is modelled by `Nat` (or
  `Int`) division.
* `try: ... except ZeroDivisionError: norm = 1.0` is modelled by testing the
  divisor for zero and taking the handler's value on a zero divisor.
* A numpy array is a shape together with its flat data
  (`NDArray`); `numpy.squeeze` drops the axes of extent 1.  The module only
  ever computes on (at most) rank-1 data; inputs that still have rank 2 after
  squeezing make the real code fail later inside numpy (broadcasting or
  truth-value errors, never the rank check's `TypeError`), which is modelled
  as an immediate `PyErr.valueError`; 0-d data makes `series[::-1,...]` raise
  `IndexError`, modelled as `PyErr.indexError`.
* `scipy.signal.fftconvolve` / `numpy.convolve` are modelled by the exact
  discrete convolution with the mode-dependent output slice they document.
-/

/-- The Python exceptions the module can surface, collapsed to their kind. -/
inductive PyErr
  | typeError
  | valueError
  | assertionError
  | indexError
deriving DecidableEq, Repr

/-- Result of a Python call: a value, or a raised exception. -/
inductive PyResult (α : Type)
  | ok (a : α)
  | error (e : PyErr)
deriving DecidableEq, Repr

/-- Convolution mode of `scipy.signal.fftconvolve` / `numpy.convolve`. -/
inductive ConvMode
  | full
  | same
  | valid
deriving DecidableEq, Repr

/-- A numpy array: a shape and the flat (row-major) data.  The module treats
series as rank-1, so all values are kept in one flat rational list. -/
structure NDArray where
  shape : List Nat
  data : List ℚ
deriving DecidableEq, Repr

/-- Model of `numpy.squeeze` at the shape level: remove all axes of extent 1. -/
def npSqueeze (shape : List Nat) : List Nat :=
  shape.filter (fun d => d ≠ 1)

/-- Model of `numpy.mean` (mean of a 1-D array).  On the empty list this is
`0/0 = 0`; the module never takes a mean it uses of an empty list. -/
def npMean (l : List ℚ) : ℚ :=
  l.sum / (l.length : ℚ)

/-- Model of `numpy.var` (population variance, ddof = 0). -/
def npVar (l : List ℚ) : ℚ :=
  npMean (l.map (fun a => (a - npMean l) ^ 2))

/-- Model of `numpy.mean(series*series)`: the mean of the squares. -/
def npMeanSq (l : List ℚ) : ℚ :=
  npMean (l.map (fun a => a * a))

/-- Sum of the squares of a list; the value of the raw autocorrelation at
lag 0. -/
def sumSq (l : List ℚ) : ℚ :=
  (l.map (fun a => a ^ 2)).sum

/-- One coefficient of the full discrete convolution of `a` and `b`:
`(a * b)[k] = sum over i of a[i] * b[k-i]` over the in-range indices. -/
def convElem (a b : List ℚ) (k : Nat) : ℚ :=
  ((List.range a.length).map
    (fun i => if i ≤ k then a.getD i 0 * b.getD (k - i) 0 else 0)).sum

/-- The full discrete convolution (mode "full"), of length
`a.length + b.length - 1`. -/
def npConvolveFull (a b : List ℚ) : List ℚ :=
  (List.range (a.length + b.length - 1)).map (convElem a b)

/-- The centered slice of length `m` of a convolution output (scipy's
`_centered`). -/
def centered (l : List ℚ) (m : Nat) : List ℚ :=
  (l.drop ((l.length - m) / 2)).take m

/-- Model of `scipy.signal.fftconvolve` (and of `numpy.convolve`, which
computes the same values) for 1-D inputs: the full convolution, or its
documented centered slice for modes "same" (length of the first input) and
"valid" (length `max - min + 1`). -/
def npFftconvolve (a b : List ℚ) (mode : ConvMode) : List ℚ :=
  let full := npConvolveFull a b
  match mode with
  | .full => full
  | .same => centered full a.length
  | .valid => centered full (max a.length b.length - min a.length b.length + 1)

/-- Step 2 of `autocorrelation_fft`: optionally subtract the mean
(`series -= mean`). -/
def demeanStep (s : List ℚ) (remove_mean : Bool) : List ℚ :=
  if remove_mean then s.map (fun a => a - npMean s) else s

/-- Steps 3 of `autocorrelation_fft`: the convolution of the series with its
own reverse and the causal half `ac[origin:]`, with
`origin = ac.shape[0]/2` (Python-2 integer division). -/
def acRaw (s : List ℚ) (mode : ConvMode) : List ℚ :=
  let ac := npFftconvolve s s.reverse mode
  ac.drop (ac.length / 2)

/-- The 0-padding correction `ac *= len(series)/(len(series) - 1.0*arange(len(ac)))`
(the factor is computed in floating point, modelled as `ℚ`). -/
def padCorrect (n : Nat) (ac : List ℚ) : List ℚ :=
  (List.range ac.length).map
    (fun i => ac.getD i 0 * ((n : ℚ) / ((n : ℚ) - (i : ℚ))))

/-- Steps 3-5 of `autocorrelation_fft`: the causal half, 0-padding corrected
when `paddingcorrection` is set and the mode is not "valid". -/
def acCorrected (s : List ℚ) (mode : ConvMode) (paddingcorrection : Bool) :
    List ℚ :=
  let ac := acRaw s mode
  if paddingcorrection && !(mode == ConvMode.valid) then
    padCorrect s.length ac
  else ac

/-- Steps 6-7 of `autocorrelation_fft`: the normalization divisor.
`norm = ac[0] or 1.0`; when `normalize` is false it is rescaled by the
variance (mean removed) or the mean of squares (mean kept) of the possibly
de-meaned series `s`, with `except ZeroDivisionError: norm = 1.0` modelled by
the zero test on the divisor. -/
def normDivisor (remove_mean normalize : Bool) (s : List ℚ) (a0 : ℚ) : ℚ :=
  let norm := if a0 = 0 then 1 else a0
  if normalize then norm
  else if remove_mean then
    (if npVar s = 0 then 1 else norm / npVar s)
  else
    (if npMeanSq s = 0 then 1 else norm / npMeanSq s)

/-- The computational core of `autocorrelation_fft` on rank-1 data: de-mean,
convolve, take the causal half, check the length assertion, apply the padding
correction, divide by the normalization divisor.  `ac[0]` on an empty causal
half raises `IndexError`. -/
def acfPipeline (series : List ℚ)
    (remove_mean paddingcorrection normalize : Bool) (mode : ConvMode) :
    PyResult (List ℚ) :=
  let s := demeanStep series remove_mean
  let ac0 := acRaw s mode
  if ac0.length ≤ s.length then
    let ac := acCorrected s mode paddingcorrection
    match ac.head? with
    | none => .error .indexError
    | some a0 =>
      let norm := normDivisor remove_mean normalize s a0
      .ok (ac.map (fun v => v / norm))
  else .error .assertionError

/-- Model of `autocorrelation_fft(series, remove_mean, paddingcorrection,
normalize, mode)` (`numkit.timeseries`, lines 36-118).  The rank check
`len(series.shape) > 2` raises `TypeError`; then the array is squeezed and,
on rank-1 data, the pipeline runs.  Data that is 0-d after squeezing (shapes
`[]`, `[1]`, `[1,1]`, ...) makes `series[::-1,...]` raise `IndexError`; data
still of rank 2 after squeezing dies later inside numpy with a non-shape
error, collapsed here to `valueError`. -/
def autocorrelation_fft (a : NDArray)
    (remove_mean paddingcorrection normalize : Bool) (mode : ConvMode) :
    PyResult (List ℚ) :=
  if a.shape.length > 2 then .error .typeError
  else
    match npSqueeze a.shape with
    | [_] => acfPipeline a.data remove_mean paddingcorrection normalize mode
    | [] => .error .indexError
    | _ => .error .valueError

/-- Slicing `l[::n]` for a positive stride `n`: the elements whose index is a
multiple of `n`.  (`n = 0` raises in Python; `tcorrel` is only ever used with
`nstep ≥ 1`.) -/
def strideList (l : List ℚ) (n : Nat) : List ℚ :=
  ((List.range l.length).filter (fun i => i % n = 0)).map (fun i => l.getD i 0)

/-- One Simpson pair on the three samples `(x0,y0) (x1,y1) (x2,y2)` with
uneven spacing `h0 = x1-x0`, `h1 = x2-x1` (the summand of scipy's
`_basic_simps`). -/
def simpsPair (x0 x1 x2 y0 y1 y2 : ℚ) : ℚ :=
  let h0 := x1 - x0
  let h1 := x2 - x1
  (h0 + h1) / 6 *
    (y0 * (2 - h1 / h0) + y1 * (h0 + h1) ^ 2 / (h0 * h1) + y2 * (2 - h0 / h1))

/-- The composite Simpson sum over successive sample triples (stepping by
two samples), the core of scipy's `_basic_simps`. -/
def simpsRun : List ℚ → List ℚ → ℚ
  | y0 :: y1 :: y2 :: ys, x0 :: x1 :: x2 :: xs =>
    simpsPair x0 x1 x2 y0 y1 y2 + simpsRun (y2 :: ys) (x2 :: xs)
  | _, _ => 0

/-- Modelled from the spec: the external numerical integrator
`scipy.integrate.simps` ("a composite numerical-integration rule accurate for
unevenly spaced samples (Simpson's rule or equivalent)"), whose source is not
part of this repository.  For an odd number of samples it is the composite
Simpson sum; for an even number it is scipy's default `even='avg'` handling,
the average of (Simpson on all but the last interval + trapezoid on the last)
and (trapezoid on the first interval + Simpson on all but the first); fewer
than two samples integrate to 0. -/
def npSimps (y x : List ℚ) : ℚ :=
  if y.length < 2 then 0
  else if y.length % 2 = 1 then simpsRun y x
  else
    ((simpsRun y.dropLast x.dropLast +
        (x.getLastD 0 - (x.dropLast.getLastD 0)) / 2 *
          (y.getLastD 0 + y.dropLast.getLastD 0)) +
      (simpsRun y.tail x.tail +
        (x.tail.headD 0 - x.headD 0) / 2 * (y.headD 0 + y.tail.headD 0))) / 2

/-- The result record of `tcorrel`.  `sigma2` is the square of the returned
`sigma = numpy.sqrt(2*tc*acf[0]/(x[-1] - x[0]))`, kept squared because the
square root of a rational is in general irrational; `sigma = 0` iff
`sigma2 = 0`.  `t` and `acf` are the optional debug fields. -/
structure TcorrelResult where
  tc : ℚ
  t0 : ℚ
  sigma2 : ℚ
  t : Option (List ℚ)
  acf : Option (List ℚ)
deriving DecidableEq, Repr

/-- Model of `tcorrel(x, y, nstep, debug)` (`numkit.timeseries`, lines
120-180).  Shapes are compared as lengths (the inputs are rank-1); every
`nstep`-th point is kept; the unnormalized ACF of the fluctuations is
computed; `i0` is the first index with `acf[i0] <= 0` (`numpy.where`), or
`-1` (the last element) when there is none; `tc` integrates the normalized
truncated ACF; the `LowAccuracyWarning` for fewer than 500 points is advisory
only and does not affect the result.  `acf[0] or 1.0` guards the
normalization. -/
def tcorrel (x y : List ℚ) (nstep : Nat) (debug : Bool) :
    PyResult TcorrelResult :=
  if x.length ≠ y.length then .error .typeError
  else
    let xs := strideList x nstep
    let ys := strideList y nstep
    match autocorrelation_fft ⟨[ys.length], ys⟩ true true false ConvMode.full with
    | .error e => .error e
    | .ok acf =>
      match acf.head? with
      | none => .error .indexError
      | some acf0 =>
        let norm := if acf0 = 0 then 1 else acf0
        match acf.findIdx? (fun v => v ≤ 0) with
        | some i0 =>
          match xs[i0]? with
          | none => .error .indexError
          | some t0 =>
            let tc := npSimps ((acf.take i0).map (fun v => v / norm))
                        (xs.take i0)
            let sigma2 := 2 * tc * acf0 / (x.getLastD 0 - x.headD 0)
            .ok ⟨tc, t0, sigma2,
                 if debug then some (xs.take i0) else none,
                 if debug then some (acf.take i0) else none⟩
        | none =>
          match xs.getLast? with
          | none => .error .indexError
          | some t0 =>
            let tc := npSimps (acf.dropLast.map (fun v => v / norm))
                        xs.dropLast
            let sigma2 := 2 * tc * acf0 / (x.getLastD 0 - x.headD 0)
            .ok ⟨tc, t0, sigma2,
                 if debug then some xs.dropLast else none,
                 if debug then some acf.dropLast else none⟩

/-- The window argument of `smooth`: a name to look up, or a numpy array used
directly as the weights. -/
inductive SmoothWindow
  | name (s : String)
  | arr (w : List ℚ)

/-- The five supported window names. -/
def windowNames : List String :=
  ["flat", "hanning", "hamming", "bartlett", "blackman"]

/-- Model of `numpy.ones(n)`: `n` copies of 1, with numpy's `ValueError` on a
negative extent. -/
def npOnes (n : Int) : PyResult (List ℚ) :=
  if n < 0 then .error .valueError else .ok (List.replicate n.toNat 1)

/-- Window resolution of `smooth` (lines 225-239): a numpy array is used
directly (and overrides `window_len` with its length); an unsupported name
raises `ValueError`; "flat" builds `numpy.ones(window_len)`; the four cosine
windows are numpy externals (`vars(numpy)[window](window_len)`), supplied
abstractly through `numpyWindow`. -/
def resolveWindow (numpyWindow : String → Int → List ℚ)
    (window_len : Int) (window : SmoothWindow) : PyResult (Int × List ℚ) :=
  match window with
  | .arr w => .ok ((w.length : Int), w)
  | .name s =>
    if ¬ (s ∈ windowNames) then .error .valueError
    else if s = "flat" then
      match npOnes window_len with
      | .error e => .error e
      | .ok w => .ok (window_len, w)
    else .ok (window_len, numpyWindow s window_len)

/-- Model of `smooth(x, window_len, window)` (`numkit.timeseries`, lines
183-252) for a rank-1 input (`x.ndim == 1` holds by construction here).
After the window is resolved, the validations run in source order: input
shorter than the window, then even window length, then the `window_len < 3`
no-op return; then the input is reflect-padded by `window_len - 1` samples on
each side, convolved ("valid") with the normalized window, and the
`(window_len-1)/2` end repeats are trimmed (Python-2 integer division). -/
def smooth (numpyWindow : String → Int → List ℚ) (x : List ℚ)
    (window_len : Int) (window : SmoothWindow) : PyResult (List ℚ) :=
  match resolveWindow numpyWindow window_len window with
  | .error e => .error e
  | .ok (wl, w) =>
    if (x.length : Int) < wl then .error .valueError
    else if wl % 2 = 0 then .error .valueError
    else if wl < 3 then .ok x
    else
      let n := wl.toNat
      let s := ((x.take n).drop 1).reverse ++ x ++
                 (x.drop (x.length - n + 1)).reverse
      let y := npFftconvolve (w.map (fun v => v / w.sum)) s ConvMode.valid
      let h := (n - 1) / 2
      .ok ((y.drop h).take (y.length - 2 * h))

/-- Model of `numpy.diff`: successive differences. -/
def npDiff : List ℚ → List ℚ
  | a :: b :: rest => (b - a) :: npDiff (b :: rest)
  | _ => []

/-- Python's `int()` on a float: truncation toward zero. -/
def pyInt (q : ℚ) : Int :=
  if q < 0 then ⌈q⌉ else ⌊q⌋

/-- Model of `smoothing_window_length(resolution, t)` (`numkit.timeseries`,
lines 254-273): divide the resolution by the mean sample spacing, truncate to
an integer, add one if even. -/
def smoothing_window_length (resolution : ℚ) (t : List ℚ) : Int :=
  let dt := npMean (npDiff t)
  let N := pyInt (resolution / dt)
  if N % 2 = 0 then N + 1 else N

/-- A store of numpy array buffers, for reasoning about aliasing and in-place
mutation: a list of flat buffers, addressed by position. -/
abbrev Store : Type := List (List ℚ)

/-- Read the buffer at reference `r`. -/
def readA (st : Store) (r : Nat) : List ℚ :=
  List.getD st r []

/-- Overwrite the buffer at reference `r` in place. -/
def writeA (st : Store) (r : Nat) (v : List ℚ) : Store :=
  List.set st r v

/-- Allocate a fresh buffer holding `v`; returns the new store and the new
reference. -/
def allocA (st : Store) (v : List ℚ) : Store × Nat :=
  (List.concat st v, List.length st)

/-- Buffer-level model of the tail of `autocorrelation_fft` (from the
`fftconvolve` call on): `fftconvolve` allocates its output; `ac = ac[origin:]`
is a view into that buffer; `ac *= ...` writes the corrected view back in
place; the final `ac/norm` allocates the returned array.  `sref` is the
(possibly de-meaned private copy) series buffer, `sqShape` the squeezed shape.
For data of rank 2 after squeezing the real code raises later inside numpy;
no operation of those paths ever writes to a pre-existing buffer, so they are
collapsed to an immediate error. -/
def acfStoreRest (st : Store) (sref : Nat) (sqShape : List Nat)
    (remove_mean paddingcorrection normalize : Bool) (mode : ConvMode) :
    Store × PyResult Nat :=
  match sqShape with
  | [_] =>
    let s := readA st sref
    let st1 := (allocA st (npFftconvolve s s.reverse mode)).1
    let aref := (allocA st (npFftconvolve s s.reverse mode)).2
    let conv := readA st1 aref
    let origin := conv.length / 2
    if (conv.drop origin).length ≤ s.length then
      let st2 := if paddingcorrection && !(mode == ConvMode.valid) then
                   writeA st1 aref
                     (conv.take origin ++ padCorrect s.length (conv.drop origin))
                 else st1
      let ac := (readA st2 aref).drop origin
      match ac.head? with
      | none => (st2, .error .indexError)
      | some a0 =>
        let norm := normDivisor remove_mean normalize s a0
        let st3 := (allocA st2 (ac.map (fun v => v / norm))).1
        let rref := (allocA st2 (ac.map (fun v => v / norm))).2
        (st3, .ok rref)
    else (st1, .error .assertionError)
  | [] => (st, .error .indexError)
  | _ => (st, .error .valueError)

/-- Buffer-level model of `autocorrelation_fft` for an input array whose data
lives in buffer `p` of store `st` with shape `shape`.  In both branches
`series.astype(float)` allocates a fresh buffer (numpy's `astype` copies by
default); `numpy.squeeze` returns a view (no allocation); with `remove_mean`
the explicit `.copy()` allocates again and `series -= mean` mutates that
private copy in place. -/
def autocorrelation_fftStore (st : Store) (shape : List Nat) (p : Nat)
    (remove_mean paddingcorrection normalize : Bool) (mode : ConvMode) :
    Store × PyResult Nat :=
  if shape.length > 2 then (st, .error .typeError)
  else
    let st1 := (allocA st (readA st p)).1
    let a1 := (allocA st (readA st p)).2
    if remove_mean then
      let st2 := (allocA st1 (readA st1 a1)).1
      let a2 := (allocA st1 (readA st1 a1)).2
      let m := npMean (readA st2 a2)
      let st3 := writeA st2 a2 ((readA st2 a2).map (fun v => v - m))
      acfStoreRest st3 a2 (npSqueeze shape) remove_mean paddingcorrection
        normalize mode
    else
      acfStoreRest st1 a1 (npSqueeze shape) remove_mean paddingcorrection
        normalize mode

/-! ## Auxiliary lemmas -/

theorem range_map_getD (l : List ℚ) :
    (List.range l.length).map (fun i => l.getD i 0) = l := by
  induction l with
  | nil => rfl
  | cons a t ih =>
    simp only [List.length_cons, List.range_succ_eq_map, List.map_cons,
      List.map_map]
    refine congrArg (a :: ·) (Eq.trans ?_ ih)
    refine List.map_congr_left ?_
    intro i _
    simp [List.getD]

theorem sum_range_map_getD (l : List ℚ) (f : ℚ → ℚ) :
    ((List.range l.length).map (fun i => f (l.getD i 0))).sum = (l.map f).sum := by
  conv_rhs => rw [← range_map_getD l, List.map_map]
  rfl

theorem getD_reverse (l : List ℚ) (i : Nat) (h : i < l.length) :
    l.reverse.getD (l.length - 1 - i) 0 = l.getD i 0 := by
  have h1 : l.length - 1 - i < l.reverse.length := by simp; omega
  rw [List.getD_eq_getElem l.reverse 0 h1, List.getD_eq_getElem l 0 h,
    List.getElem_reverse]
  congr 1
  omega

theorem length_demeanStep (s : List ℚ) (rm : Bool) :
    (demeanStep s rm).length = s.length := by
  cases rm <;> simp [demeanStep]

theorem length_npConvolveFull (a b : List ℚ) :
    (npConvolveFull a b).length = a.length + b.length - 1 := by
  simp [npConvolveFull]

theorem length_centered (l : List ℚ) (m : Nat) :
    (centered l m).length = min m (l.length - (l.length - m) / 2) := by
  simp [centered]

theorem length_acRaw_le (s : List ℚ) (mode : ConvMode) :
    (acRaw s mode).length ≤ s.length := by
  cases mode <;>
    simp only [acRaw, npFftconvolve, List.length_drop, length_centered,
      length_npConvolveFull, List.length_reverse] <;>
    omega

theorem length_acRaw_full (s : List ℚ) :
    (acRaw s ConvMode.full).length = s.length := by
  simp only [acRaw, npFftconvolve, List.length_drop, length_npConvolveFull,
    List.length_reverse]
  omega

theorem length_padCorrect (n : Nat) (ac : List ℚ) :
    (padCorrect n ac).length = ac.length := by
  simp [padCorrect]

theorem head?_acRaw_full (s : List ℚ) (h : s ≠ []) :
    (acRaw s ConvMode.full).head? = some (sumSq s) := by
  have hn : 1 ≤ s.length := List.length_pos.mpr h
  have hlen : (npConvolveFull s s.reverse).length = s.length + s.length - 1 := by
    rw [length_npConvolveFull, List.length_reverse]
  rw [acRaw]
  simp only [npFftconvolve]
  rw [List.head?_drop, hlen]
  have hidx : (s.length + s.length - 1) / 2 = s.length - 1 := by omega
  rw [hidx, npConvolveFull, List.getElem?_map, List.length_reverse]
  have hlt : s.length - 1 < s.length + s.length - 1 := by omega
  rw [List.getElem?_range hlt]
  simp only [Option.map_some']
  refine congrArg some ?_
  rw [convElem]
  have hterm : ∀ i ∈ List.range s.length,
      (if i ≤ s.length - 1 then
        s.getD i 0 * s.reverse.getD (s.length - 1 - i) 0 else 0) =
      (fun j => (s.getD j 0) ^ 2) i := by
    intro i hi
    rw [List.mem_range] at hi
    rw [if_pos (by omega), getD_reverse s i hi]
    ring
  rw [List.map_congr_left hterm, sum_range_map_getD s (fun a => a ^ 2)]
  rfl

theorem head?_padCorrect (n : Nat) (ac : List ℚ) (h : ac ≠ [])
    (hn : (n : ℚ) ≠ 0) :
    (padCorrect n ac).head? = some (ac.headD 0) := by
  have h1 : 0 < ac.length := List.length_pos.mpr h
  rw [padCorrect, List.head?_eq_getElem?, List.getElem?_map,
    List.getElem?_range h1]
  simp [div_self hn, List.headD_eq_head?, List.head?_eq_getElem?,
    List.getD_eq_getElem?_getD]

theorem sum_map_sub_const (x : List ℚ) (c : ℚ) :
    (x.map (fun a => a - c)).sum = x.sum - x.length * c := by
  induction x with
  | nil => simp
  | cons a t ih =>
    simp only [List.map_cons, List.sum_cons, ih, List.length_cons]
    push_cast
    ring

theorem npMean_demean (x : List ℚ) (h : x ≠ []) :
    npMean (x.map (fun a => a - npMean x)) = 0 := by
  have hn : (x.length : ℚ) ≠ 0 :=
    Nat.cast_ne_zero.mpr (List.length_pos.mpr h).ne'
  rw [npMean, sum_map_sub_const, List.length_map, npMean]
  field_simp

theorem npVar_eq_sumSq_div (s : List ℚ) (h : npMean s = 0) :
    npVar s = sumSq s / (s.length : ℚ) := by
  rw [npVar, npMean, List.length_map, sumSq]
  refine congrArg (fun q => q / (s.length : ℚ)) (congrArg List.sum ?_)
  refine List.map_congr_left ?_
  intro a _
  rw [h, sub_zero]

theorem npVar_demeanStep (x : List ℚ) :
    npVar (demeanStep x true) = npVar x := by
  by_cases h : x = []
  · subst h; rfl
  · have hm : npMean (demeanStep x true) = 0 := by
      simpa [demeanStep] using npMean_demean x h
    rw [npVar, hm, npVar]
    simp only [demeanStep, if_pos, List.map_map, List.length_map]
    refine congrArg npMean (List.map_congr_left ?_)
    intro a _
    simp

theorem sumSq_demean_of_var_zero (x : List ℚ) (h : x ≠ [])
    (hv : npVar x = 0) : sumSq (demeanStep x true) = 0 := by
  have hm : npMean (demeanStep x true) = 0 := by
    simpa [demeanStep] using npMean_demean x h
  have hvar : npVar (demeanStep x true) = 0 := by rw [npVar_demeanStep, hv]
  rw [npVar_eq_sumSq_div _ hm] at hvar
  have hn : ((demeanStep x true).length : ℚ) ≠ 0 := by
    rw [length_demeanStep]
    exact Nat.cast_ne_zero.mpr (List.length_pos.mpr h).ne'
  field_simp at hvar
  exact hvar

theorem mem_sumSq_zero (l : List ℚ) (h : sumSq l = 0) :
    ∀ v ∈ l, v = 0 := by
  intro v hv
  have hsq : ∀ q ∈ l.map (fun a => a ^ 2), (0:ℚ) ≤ q := by
    intro q hq
    obtain ⟨a, _, rfl⟩ := List.mem_map.mp hq
    positivity
  have : v ^ 2 = 0 :=
    List.all_zero_of_le_zero_le_of_sum_eq_zero hsq h
      (List.mem_map.mpr ⟨v, hv, rfl⟩)
  exact pow_eq_zero_iff (n := 2) (by omega) |>.mp this

theorem convElem_zero (a b : List ℚ) (k : Nat) (ha : ∀ v ∈ a, v = 0) :
    convElem a b k = 0 := by
  rw [convElem]
  refine List.sum_eq_zero ?_
  intro q hq
  obtain ⟨i, hi, rfl⟩ := List.mem_map.mp hq
  rw [List.mem_range] at hi
  by_cases hik : i ≤ k
  · rw [if_pos hik]
    have : a.getD i 0 = 0 := by
      rw [List.getD_eq_getElem a 0 hi]
      exact ha _ (List.getElem_mem hi)
    rw [this, zero_mul]
  · rw [if_neg hik]

theorem mem_acRaw_zero (s : List ℚ) (mode : ConvMode)
    (hs : ∀ v ∈ s, v = 0) : ∀ v ∈ acRaw s mode, v = 0 := by
  have hfull : ∀ v ∈ npConvolveFull s s.reverse, v = 0 := by
    intro v hv
    obtain ⟨k, _, rfl⟩ := List.mem_map.mp hv
    exact convElem_zero _ _ _ hs
  have hmode : ∀ v ∈ npFftconvolve s s.reverse mode, v = 0 := by
    intro v hv
    cases mode with
    | full => exact hfull v hv
    | same =>
      refine hfull v ?_
      simp only [npFftconvolve, centered] at hv
      exact List.drop_subset _ _ (List.take_subset _ _ hv)
    | valid =>
      refine hfull v ?_
      simp only [npFftconvolve, centered] at hv
      exact List.drop_subset _ _ (List.take_subset _ _ hv)
  intro v hv
  exact hmode v (List.drop_subset _ _ hv)

theorem mem_padCorrect_zero (n : Nat) (ac : List ℚ)
    (h : ∀ v ∈ ac, v = 0) : ∀ v ∈ padCorrect n ac, v = 0 := by
  intro v hv
  obtain ⟨i, _, rfl⟩ := List.mem_map.mp hv
  by_cases hi : i < ac.length
  · have : ac.getD i 0 = 0 := by
      rw [List.getD_eq_getElem ac 0 hi]
      exact h _ (List.getElem_mem hi)
    rw [this, zero_mul]
  · rw [List.getD_eq_default ac 0 (by omega), zero_mul]

theorem acCorrected_full_true (s : List ℚ) :
    acCorrected s ConvMode.full true =
      padCorrect s.length (acRaw s ConvMode.full) := by
  simp [acCorrected]

theorem acfPipeline_full_eq (x : List ℚ) (rm nz : Bool) (h : x ≠ []) :
    acfPipeline x rm true nz ConvMode.full =
      PyResult.ok
        ((padCorrect x.length (acRaw (demeanStep x rm) ConvMode.full)).map
          (fun v => v / normDivisor rm nz (demeanStep x rm)
            (sumSq (demeanStep x rm)))) := by
  have hslen : (demeanStep x rm).length = x.length := length_demeanStep x rm
  have hs : demeanStep x rm ≠ [] := by
    refine List.length_pos.mp ?_
    rw [hslen]
    exact List.length_pos.mpr h
  have hraw : (acRaw (demeanStep x rm) ConvMode.full).length = x.length := by
    rw [length_acRaw_full, hslen]
  have hrawne : acRaw (demeanStep x rm) ConvMode.full ≠ [] := by
    refine List.length_pos.mp ?_
    rw [hraw]
    exact List.length_pos.mpr h
  have hcast : ((demeanStep x rm).length : ℚ) ≠ 0 :=
    Nat.cast_ne_zero.mpr (List.length_pos.mpr hs).ne'
  have hhead :
      (padCorrect x.length (acRaw (demeanStep x rm) ConvMode.full)).head? =
        some (sumSq (demeanStep x rm)) := by
    rw [← hslen, head?_padCorrect _ _ hrawne hcast, List.headD_eq_head?,
      head?_acRaw_full _ hs]
    rfl
  simp only [acfPipeline]
  rw [if_pos (le_of_eq (length_acRaw_full _))]
  rw [acCorrected_full_true, hslen, hhead]

theorem autocorrelation_fft_rank1 (x : List ℚ) (h : x.length ≠ 1)
    (rm pc nz : Bool) (mode : ConvMode) :
    autocorrelation_fft ⟨[x.length], x⟩ rm pc nz mode =
      acfPipeline x rm pc nz mode := by
  rw [autocorrelation_fft]
  rw [if_neg (by simp)]
  have : npSqueeze [x.length] = [x.length] := by
    simp [npSqueeze, h]
  rw [this]

theorem acfPipeline_zero_of_demeaned_zero (x : List ℚ) (rm : Bool)
    (h : x ≠ []) (hz : ∀ v ∈ demeanStep x rm, v = 0) :
    acfPipeline x rm true false ConvMode.full =
      PyResult.ok (List.replicate x.length 0) := by
  rw [acfPipeline_full_eq x rm false h]
  refine congrArg PyResult.ok ?_
  have hzero : ∀ v ∈ (padCorrect x.length
      (acRaw (demeanStep x rm) ConvMode.full)).map
        (fun v => v / normDivisor rm false (demeanStep x rm)
          (sumSq (demeanStep x rm))), v = 0 := by
    intro v hv
    obtain ⟨w, hw, rfl⟩ := List.mem_map.mp hv
    have : w = 0 :=
      mem_padCorrect_zero _ _ (mem_acRaw_zero _ _ hz) _ hw
    rw [this, zero_div]
  rw [List.eq_replicate_iff]
  refine ⟨?_, hzero⟩
  rw [List.length_map, length_padCorrect, length_acRaw_full, length_demeanStep]

theorem npMean_const (l : List ℚ) (c : ℚ) (h : l ≠ []) (hc : ∀ v ∈ l, v = c) :
    npMean l = c := by
  have hn : (l.length : ℚ) ≠ 0 :=
    Nat.cast_ne_zero.mpr (List.length_pos.mpr h).ne'
  rw [npMean, List.sum_eq_card_nsmul l c hc, nsmul_eq_mul]
  field_simp

theorem demean_const_zero (x : List ℚ) (c : ℚ) (hc : ∀ v ∈ x, v = c) :
    ∀ v ∈ demeanStep x true, v = 0 := by
  intro v hv
  rcases List.eq_nil_or_concat x with h | _
  · subst h; simp [demeanStep] at hv
  · have hx : x ≠ [] := by
      rintro rfl
      simp [demeanStep] at hv
    simp only [demeanStep, if_pos, List.mem_map] at hv
    obtain ⟨a, ha, rfl⟩ := hv
    rw [hc a ha, npMean_const x c hx hc, sub_self]

theorem two_le_length_of_npVar_ne_zero (x : List ℚ) (h : npVar x ≠ 0) :
    2 ≤ x.length := by
  by_contra hlt
  push_neg at hlt
  interval_cases hx : x.length
  · have : x = [] := List.length_eq_zero.mp hx
    subst this
    simp [npVar, npMean] at h
  · obtain ⟨a, rfl⟩ : ∃ a, x = [a] := List.length_eq_one.mp hx
    simp [npVar, npMean] at h

theorem acfPipeline_ne_typeError (s : List ℚ) (rm pc nz : Bool)
    (mode : ConvMode) :
    acfPipeline s rm pc nz mode ≠ PyResult.error PyErr.typeError := by
  simp only [acfPipeline]
  split
  · split <;> simp
  · simp

theorem acfPipeline_ne_assertionError (s : List ℚ) (rm pc nz : Bool)
    (mode : ConvMode) :
    acfPipeline s rm pc nz mode ≠ PyResult.error PyErr.assertionError := by
  simp only [acfPipeline]
  rw [if_pos]
  · split <;> simp
  · rw [length_demeanStep]
    exact (length_acRaw_le _ _).trans (le_of_eq (length_demeanStep s rm))

theorem length_npDiff (t : List ℚ) : (npDiff t).length = t.length - 1 := by
  induction t with
  | nil => rfl
  | cons a t ih =>
    cases t with
    | nil => rfl
    | cons b r =>
      have : npDiff (a :: b :: r) = (b - a) :: npDiff (b :: r) := rfl
      rw [this, List.length_cons, ih]
      simp

theorem npDiff_pos (t : List ℚ) :
    List.Chain' (· < ·) t → ∀ v ∈ npDiff t, 0 < v := by
  induction t with
  | nil =>
    intro _ v hv
    simp [npDiff] at hv
  | cons a t ih =>
    intro h v hv
    cases t with
    | nil => simp [npDiff] at hv
    | cons b r =>
      rw [List.chain'_cons] at h
      rw [show npDiff (a :: b :: r) = (b - a) :: npDiff (b :: r) from rfl] at hv
      rcases List.mem_cons.mp hv with rfl | hv'
      · linarith [h.1]
      · exact ih h.2 v hv'

/-! ## Claim theorems -/

/-- C5: for every rank-1 series (after optional de-meaning) and every
convolution mode, the causal half taken from the convolution output has
length at most the series length; consequently the internal length assertion
of `autocorrelation_fft` can never fire, on any input whatsoever. -/
theorem causal_half_length_le_and_assert_never_fails :
    (∀ (s : List ℚ) (rm : Bool) (mode : ConvMode),
        (acRaw (demeanStep s rm) mode).length ≤ s.length) ∧
    (∀ (a : NDArray) (rm pc nz : Bool) (mode : ConvMode),
        autocorrelation_fft a rm pc nz mode ≠
          PyResult.error PyErr.assertionError) := by
  constructor
  · intro s rm mode
    exact (length_acRaw_le _ _).trans (le_of_eq (length_demeanStep s rm))
  · intro a rm pc nz mode
    rw [autocorrelation_fft]
    split
    · simp
    · split
      · exact acfPipeline_ne_assertionError _ _ _ _ _
      · simp
      · simp

/-- C6: with `paddingcorrection` set and a mode other than "valid", each
lag-`i` element of the causal half is multiplied by exactly `N/(N-i)` (`N`
the series length) before the normalization divisor is applied; with mode
"valid", or with `paddingcorrection` unset, no scaling is applied. -/
theorem padding_correction_factor (s : List ℚ) (mode : ConvMode) (pc : Bool) :
    (mode ≠ ConvMode.valid → ∀ i, i < (acRaw s mode).length →
      (acCorrected s mode true)[i]? =
        some ((acRaw s mode).getD i 0 *
          ((s.length : ℚ) / ((s.length : ℚ) - (i : ℚ))))) ∧
    acCorrected s mode false = acRaw s mode ∧
    acCorrected s ConvMode.valid pc = acRaw s ConvMode.valid := by
  refine ⟨?_, ?_, ?_⟩
  · intro hm i hi
    have hmode : (mode == ConvMode.valid) = false := by
      cases mode <;> simp_all
    simp only [acCorrected, hmode, Bool.not_false, Bool.and_true, if_true]
    rw [padCorrect, List.getElem?_map, List.getElem?_range hi]
    rfl
  · simp [acCorrected]
  · simp [acCorrected]

/-- C2 (amended): `autocorrelation_fft` raises the rank-check `TypeError` if
and only if the input's rank exceeds 2; in particular a rank-2 input passes
the validation. -/
theorem autocorrelation_fft_typeError_iff (a : NDArray) (rm pc nz : Bool)
    (mode : ConvMode) :
    autocorrelation_fft a rm pc nz mode = PyResult.error PyErr.typeError ↔
      2 < a.shape.length := by
  rw [autocorrelation_fft]
  split
  case isTrue h => simp [h]
  case isFalse h =>
    refine iff_of_false ?_ h
    split
    · exact acfPipeline_ne_typeError _ _ _ _ _
    · simp
    · simp

/-- C2 (counterexample): the rank-2 array of shape `(1, 3)` is not rank 1,
yet `autocorrelation_fft` raises nothing at all and returns an ordinary
result (the shape is squeezed to 1-D). -/
theorem autocorrelation_fft_rank2_no_error :
    autocorrelation_fft ⟨[1, 3], [1, 2, 3]⟩ true true false ConvMode.full =
        PyResult.ok [2/3, 0, -1] ∧
      ([1, 3] : List Nat).length ≠ 1 := by
  constructor
  · norm_num [autocorrelation_fft, npSqueeze, acfPipeline, demeanStep, npMean,
      acRaw, npFftconvolve, npConvolveFull, convElem, acCorrected, padCorrect,
      normDivisor, npVar, List.range_succ]
    norm_num [if_neg (show ¬ (ConvMode.full = ConvMode.valid) from
      fun h => ConvMode.noConfusion h), List.head?]
  · decide

/-- C9: for every positive resolution and every strictly increasing abscissa
list with at least two points, `smoothing_window_length` returns an odd
positive integer (and in particular always succeeds). -/
theorem smoothing_window_length_odd_pos (resolution : ℚ) (t : List ℚ)
    (hres : 0 < resolution) (hlen : 2 ≤ t.length)
    (hmono : List.Chain' (· < ·) t) :
    Odd (smoothing_window_length resolution t) ∧
      0 < smoothing_window_length resolution t := by
  have hdiffne : npDiff t ≠ [] := by
    have hl := length_npDiff t
    intro hnil
    rw [hnil] at hl
    simp at hl
    omega
  have hdiffpos := npDiff_pos t hmono
  have hsum : 0 < (npDiff t).sum := List.sum_pos _ hdiffpos hdiffne
  have hdt : 0 < npMean (npDiff t) := by
    rw [npMean]
    refine div_pos hsum ?_
    exact_mod_cast List.length_pos.mpr hdiffne
  have hq : 0 < resolution / npMean (npDiff t) := div_pos hres hdt
  have hfloor : 0 ≤ ⌊resolution / npMean (npDiff t)⌋ :=
    Int.floor_nonneg.mpr hq.le
  simp only [smoothing_window_length, pyInt, if_neg (not_lt.mpr hq.le)]
  by_cases hpar : ⌊resolution / npMean (npDiff t)⌋ % 2 = 0
  · rw [if_pos hpar]
    constructor
    · rw [Int.odd_iff]
      omega
    · omega
  · rw [if_neg hpar]
    constructor
    · rw [Int.odd_iff]
      omega
    · omega

/-- C9 witness. -/
theorem smoothing_window_length_odd_pos_witness :
    Odd (smoothing_window_length 1 [0, 1, 2]) ∧
      0 < smoothing_window_length 1 [0, 1, 2] :=
  smoothing_window_length_odd_pos 1 [0, 1, 2] (by norm_num) (by decide)
    (by norm_num [List.chain'_cons])

theorem head?_padCorrect_acRaw (x : List ℚ) (rm : Bool) (h : x ≠ []) :
    (padCorrect x.length (acRaw (demeanStep x rm) ConvMode.full)).head? =
      some (sumSq (demeanStep x rm)) := by
  have hslen : (demeanStep x rm).length = x.length := length_demeanStep x rm
  have hs : demeanStep x rm ≠ [] := by
    refine List.length_pos.mp ?_
    rw [hslen]
    exact List.length_pos.mpr h
  have hrawne : acRaw (demeanStep x rm) ConvMode.full ≠ [] := by
    refine List.length_pos.mp ?_
    rw [length_acRaw_full, hslen]
    exact List.length_pos.mpr h
  have hcast : ((demeanStep x rm).length : ℚ) ≠ 0 :=
    Nat.cast_ne_zero.mpr (List.length_pos.mpr hs).ne'
  rw [← hslen, head?_padCorrect _ _ hrawne hcast, List.headD_eq_head?,
    head?_acRaw_full _ hs]
  rfl

/-- C1: under the default settings (`remove_mean=True`,
`paddingcorrection=True`, `normalize=False`, `mode='full'`), for every rank-1
series with nonzero sample variance the returned ACF's element at index 0
equals the series' variance, exactly. -/
theorem autocorrelation_fft_lag0_variance (x : List ℚ) (hv : npVar x ≠ 0) :
    ∃ r, autocorrelation_fft ⟨[x.length], x⟩ true true false ConvMode.full =
        PyResult.ok r ∧ r.head? = some (npVar x) := by
  have h2 : 2 ≤ x.length := two_le_length_of_npVar_ne_zero x hv
  have hne : x ≠ [] := by
    intro h
    subst h
    simp at h2
  have h1 : x.length ≠ 1 := by omega
  rw [autocorrelation_fft_rank1 x h1, acfPipeline_full_eq x true false hne]
  refine ⟨_, rfl, ?_⟩
  rw [List.head?_map, head?_padCorrect_acRaw x true hne]
  have hslen : (demeanStep x true).length = x.length := length_demeanStep x true
  have hmean : npMean (demeanStep x true) = 0 := by
    simpa [demeanStep] using npMean_demean x hne
  have hvs : npVar (demeanStep x true) = npVar x := npVar_demeanStep x
  have hvdiv : npVar (demeanStep x true) =
      sumSq (demeanStep x true) / ((demeanStep x true).length : ℚ) :=
    npVar_eq_sumSq_div _ hmean
  have hcast : ((demeanStep x true).length : ℚ) ≠ 0 := by
    rw [hslen]
    exact Nat.cast_ne_zero.mpr (by omega)
  have ha0 : sumSq (demeanStep x true) ≠ 0 := by
    intro h0
    rw [h0, zero_div] at hvdiv
    rw [hvdiv] at hvs
    exact hv hvs.symm
  have hvarne : npVar (demeanStep x true) ≠ 0 := by
    rw [hvs]
    exact hv
  refine congrArg some ?_
  rw [normDivisor]
  simp only [Bool.false_eq_true, if_false, if_true, if_neg ha0, if_neg hvarne]
  rw [← hvs, hvdiv]
  field_simp

/-- C1 witness. -/
theorem autocorrelation_fft_lag0_variance_witness :
    ∃ r, autocorrelation_fft ⟨[([(0:ℚ), 1]).length], [0, 1]⟩ true true false
          ConvMode.full = PyResult.ok r ∧
        r.head? = some (npVar [0, 1]) :=
  autocorrelation_fft_lag0_variance [0, 1] (by norm_num [npVar, npMean])

/-- C4 (amended): with `normalize=False`, for every degenerate series of
length at least 2 (zero variance with `remove_mean=True`, or all-zero with
`remove_mean=False`) the rescaling of the divisor would divide by zero, the
divisor falls back to 1.0, and the call returns a defined (all-zero) result
instead of raising.  (Length-1 degenerate series instead make the call raise
`IndexError`; see the counterexample.) -/
theorem autocorrelation_fft_degenerate_fallback (x : List ℚ)
    (h2 : 2 ≤ x.length) :
    (npVar x = 0 →
      autocorrelation_fft ⟨[x.length], x⟩ true true false ConvMode.full =
          PyResult.ok (List.replicate x.length 0) ∧
        normDivisor true false (demeanStep x true) 0 = 1) ∧
    ((∀ v ∈ x, v = 0) →
      autocorrelation_fft ⟨[x.length], x⟩ false true false ConvMode.full =
          PyResult.ok (List.replicate x.length 0) ∧
        normDivisor false false x 0 = 1) := by
  have hne : x ≠ [] := by
    intro h
    subst h
    simp at h2
  have h1 : x.length ≠ 1 := by omega
  constructor
  · intro hv
    have hz : ∀ v ∈ demeanStep x true, v = 0 :=
      mem_sumSq_zero _ (sumSq_demean_of_var_zero x hne hv)
    constructor
    · rw [autocorrelation_fft_rank1 x h1]
      exact acfPipeline_zero_of_demeaned_zero x true hne hz
    · have hvs : npVar (demeanStep x true) = 0 := by
        rw [npVar_demeanStep, hv]
      simp [normDivisor, hvs]
  · intro hz
    have hz' : ∀ v ∈ demeanStep x false, v = 0 := by
      simpa [demeanStep] using hz
    constructor
    · rw [autocorrelation_fft_rank1 x h1]
      exact acfPipeline_zero_of_demeaned_zero x false hne hz'
    · have hms : npMeanSq x = 0 := by
        rw [npMeanSq, npMean]
        have : ∀ q ∈ x.map (fun a => a * a), q = 0 := by
          intro q hq
          obtain ⟨a, ha, rfl⟩ := List.mem_map.mp hq
          rw [hz a ha, mul_zero]
        rw [List.sum_eq_zero this, zero_div]
      simp [normDivisor, hms]

/-- C4 (counterexample): the length-1 series `[5]` is degenerate (zero
variance), yet `autocorrelation_fft` raises `IndexError` rather than
returning a defined result: `numpy.squeeze` collapses shape `(1,)` to 0-d
and `series[::-1,...]` then fails. -/
theorem autocorrelation_fft_singleton_raises :
    autocorrelation_fft ⟨[1], [5]⟩ true true false ConvMode.full =
        PyResult.error PyErr.indexError ∧
      npVar [(5:ℚ)] = 0 := by
  constructor
  · rfl
  · norm_num [npVar, npMean]

/-- C4 witness. -/
theorem autocorrelation_fft_degenerate_fallback_witness :
    (autocorrelation_fft ⟨[2], [3, 3]⟩ true true false ConvMode.full =
        PyResult.ok (List.replicate 2 0) ∧
      normDivisor true false (demeanStep [3, 3] true) 0 = 1) ∧
    (autocorrelation_fft ⟨[2], [0, 0]⟩ false true false ConvMode.full =
        PyResult.ok (List.replicate 2 0) ∧
      normDivisor false false [0, 0] 0 = 1) := by
  constructor
  · exact (autocorrelation_fft_degenerate_fallback [3, 3] (by decide)).1
      (by norm_num [npVar, npMean])
  · exact (autocorrelation_fft_degenerate_fallback [0, 0] (by decide)).2
      (by simp)

theorem acfPipeline_nil (rm pc nz : Bool) (mode : ConvMode) :
    acfPipeline [] rm pc nz mode = PyResult.error PyErr.indexError := by
  cases rm <;> cases pc <;> cases nz <;> cases mode <;> rfl

/-- The elementwise division prescribed by the spec's round-trip property:
divide the unnormalized ACF by its own element 0.  A missing element 0, or a
zero element 0, leaves the division with no real-number value (numpy yields
NaN), modelled as `none`. -/
def divByHead (l : List ℚ) : Option (List ℚ) :=
  match l.head? with
  | none => none
  | some h => if h = 0 then none else some (l.map (fun v => v / h))

/-- C7 (amended): for every series whose unnormalized ACF (default settings)
has a nonzero element 0, `autocorrelation_fft` with `normalize=True` returns
exactly the unnormalized result divided elementwise by its element 0.  (For
degenerate series element 0 is zero, the division is undefined, and the
round-trip fails; see the counterexample.) -/
theorem acf_normalize_roundtrip (a : NDArray) (u : List ℚ) (h0 : ℚ)
    (hu : autocorrelation_fft a true true false ConvMode.full = PyResult.ok u)
    (hh : u.head? = some h0) (hne : h0 ≠ 0) :
    autocorrelation_fft a true true true ConvMode.full =
      PyResult.ok (u.map (fun v => v / h0)) := by
  rw [autocorrelation_fft] at hu ⊢
  by_cases hsh : a.shape.length > 2
  · rw [if_pos hsh] at hu
    exact absurd hu (by simp)
  rw [if_neg hsh] at hu ⊢
  rcases hsq : npSqueeze a.shape with _ | ⟨n, _ | ⟨m, rest⟩⟩
  · rw [hsq] at hu
    exact absurd hu (by simp)
  · rw [hsq] at hu
    replace hu : acfPipeline a.data true true false ConvMode.full =
        PyResult.ok u := hu
    show acfPipeline a.data true true true ConvMode.full =
      PyResult.ok (u.map (fun v => v / h0))
    by_cases hd : a.data = []
    · rw [hd, acfPipeline_nil] at hu
      exact absurd hu (by simp)
    rw [acfPipeline_full_eq a.data true false hd] at hu
    rw [acfPipeline_full_eq a.data true true hd]
    have hu' := (PyResult.ok.inj hu).symm
    subst hu'
    rw [List.head?_map, head?_padCorrect_acRaw a.data true hd] at hh
    have hh' : sumSq (demeanStep a.data true) /
        normDivisor true false (demeanStep a.data true)
          (sumSq (demeanStep a.data true)) = h0 := by
      exact Option.some.inj hh
    have hmean : npMean (demeanStep a.data true) = 0 := by
      simpa [demeanStep] using npMean_demean a.data hd
    have hvdiv : npVar (demeanStep a.data true) =
        sumSq (demeanStep a.data true) /
          ((demeanStep a.data true).length : ℚ) :=
      npVar_eq_sumSq_div _ hmean
    have hcast : ((demeanStep a.data true).length : ℚ) ≠ 0 := by
      rw [length_demeanStep]
      exact Nat.cast_ne_zero.mpr (List.length_pos.mpr hd).ne'
    have ha0 : sumSq (demeanStep a.data true) ≠ 0 := by
      intro h0z
      apply hne
      rw [← hh', h0z, zero_div]
    have hvne : npVar (demeanStep a.data true) ≠ 0 := by
      rw [hvdiv]
      exact div_ne_zero ha0 hcast
    have hnormU : normDivisor true false (demeanStep a.data true)
        (sumSq (demeanStep a.data true)) =
          sumSq (demeanStep a.data true) / npVar (demeanStep a.data true) := by
      rw [normDivisor]
      simp only [Bool.false_eq_true, if_false, if_true, if_neg ha0,
        if_neg hvne]
    have hh0 : h0 = npVar (demeanStep a.data true) := by
      rw [← hh', hnormU]
      field_simp
    have hnormT : normDivisor true true (demeanStep a.data true)
        (sumSq (demeanStep a.data true)) =
          sumSq (demeanStep a.data true) := by
      rw [normDivisor]
      simp only [if_true, if_neg ha0]
    rw [hnormT, hnormU, List.map_map]
    refine congrArg PyResult.ok (List.map_congr_left ?_)
    intro w _
    simp only [Function.comp_apply, hh0]
    rw [div_div]
    congr 1
    field_simp
  · rw [hsq] at hu
    exact absurd hu (by simp)

/-- C7 (counterexample): for the constant series `[1, 1]` the normalized call
returns `[0, 0]`, while the unnormalized call also returns `[0, 0]`, whose
element 0 is zero — the division the claim prescribes is a division by zero
and has no value, so the claimed equality fails for this series. -/
theorem acf_roundtrip_fails_on_constant :
    autocorrelation_fft ⟨[2], [1, 1]⟩ true true true ConvMode.full =
        PyResult.ok [0, 0] ∧
      autocorrelation_fft ⟨[2], [1, 1]⟩ true true false ConvMode.full =
        PyResult.ok [0, 0] ∧
      divByHead [0, 0] = none := by
  refine ⟨?_, ?_, ?_⟩
  · norm_num [autocorrelation_fft, npSqueeze, acfPipeline, demeanStep, npMean,
      acRaw, npFftconvolve, npConvolveFull, convElem, acCorrected, padCorrect,
      normDivisor, npVar, npMeanSq, List.range_succ]
  · norm_num [autocorrelation_fft, npSqueeze, acfPipeline, demeanStep, npMean,
      acRaw, npFftconvolve, npConvolveFull, convElem, acCorrected, padCorrect,
      normDivisor, npVar, npMeanSq, List.range_succ]
  · simp [divByHead, List.head?]

/-- C7 witness. -/
theorem acf_normalize_roundtrip_witness :
    autocorrelation_fft ⟨[2], [0, 1]⟩ true true true ConvMode.full =
      PyResult.ok ([(1:ℚ)/4, -(1:ℚ)/4].map (fun v => v / (1/4))) := by
  refine acf_normalize_roundtrip ⟨[2], [0, 1]⟩ [(1:ℚ)/4, -(1:ℚ)/4] (1/4)
    ?_ (by norm_num [List.head?]) (by norm_num)
  norm_num [autocorrelation_fft, npSqueeze, acfPipeline, demeanStep, npMean,
    acRaw, npFftconvolve, npConvolveFull, convElem, acCorrected, padCorrect,
    normDivisor, npVar, npMeanSq, List.range_succ]
  norm_num [if_neg (show ¬ (ConvMode.full = ConvMode.valid) from
    fun h => ConvMode.noConfusion h), List.head?]

/-- C2 witness. -/
theorem autocorrelation_fft_typeError_iff_witness :
    autocorrelation_fft ⟨[2, 2, 2], []⟩ true true false ConvMode.full =
      PyResult.error PyErr.typeError :=
  (autocorrelation_fft_typeError_iff ⟨[2, 2, 2], []⟩ true true false
    ConvMode.full).mpr (by decide)

/-- C5 witness. -/
theorem causal_half_length_le_witness :
    (acRaw (demeanStep [(1:ℚ), 2] true) ConvMode.full).length ≤
        [(1:ℚ), 2].length ∧
      autocorrelation_fft ⟨[2], [1, 2]⟩ true true false ConvMode.full ≠
        PyResult.error PyErr.assertionError :=
  ⟨causal_half_length_le_and_assert_never_fails.1 [(1:ℚ), 2] true
      ConvMode.full,
    causal_half_length_le_and_assert_never_fails.2 ⟨[2], [1, 2]⟩ true true
      false ConvMode.full⟩

/-- C6 witness. -/
theorem padding_correction_factor_witness :
    (acCorrected [(1:ℚ), 2] ConvMode.full true)[1]? =
      some ((acRaw [(1:ℚ), 2] ConvMode.full).getD 1 0 *
        ((([(1:ℚ), 2].length : Nat) : ℚ) /
          ((([(1:ℚ), 2].length : Nat) : ℚ) - ((1 : Nat) : ℚ)))) :=
  (padding_correction_factor [(1:ℚ), 2] ConvMode.full true).1
    (fun h => ConvMode.noConfusion h) 1
    (by rw [length_acRaw_full]; decide)

theorem mem_strideList (l : List ℚ) (n : Nat) (v : ℚ)
    (hv : v ∈ strideList l n) : v ∈ l := by
  simp only [strideList, List.mem_map] at hv
  obtain ⟨i, hi, rfl⟩ := hv
  have hlt : i < l.length := List.mem_range.mp (List.mem_filter.mp hi).1
  rw [List.getD_eq_getElem l 0 hlt]
  exact List.getElem_mem hlt

/-- C3: in `tcorrel`, an ACF that is zero everywhere (here: `y` constant, so
the de-meaned fluctuations vanish) is silently handled by the divisor guard
`acf[0] or 1.0` and yields `tc = 0` and `sigma = 0` (recorded as
`sigma2 = 0`), returning a defined result record rather than failing. -/
theorem tcorrel_zero_acf (x y : List ℚ) (c : ℚ) (nstep : Nat) (debug : Bool)
    (hxy : x.length = y.length) (hstep : 1 ≤ nstep)
    (hc : ∀ v ∈ y, v = c) (h2 : 2 ≤ (strideList y nstep).length)
    (hx : x.getLastD 0 - x.headD 0 ≠ 0) :
    ∃ r, tcorrel x y nstep debug = PyResult.ok r ∧ r.tc = 0 ∧ r.sigma2 = 0 := by
  have hysne : strideList y nstep ≠ [] := by
    intro h
    rw [h] at h2
    simp at h2
  have hyc : ∀ v ∈ strideList y nstep, v = c := fun v hv =>
    hc v (mem_strideList _ _ _ hv)
  have hz : ∀ v ∈ demeanStep (strideList y nstep) true, v = 0 :=
    demean_const_zero _ c hyc
  have hm1 : (strideList y nstep).length ≠ 1 := by omega
  have hacf : autocorrelation_fft ⟨[(strideList y nstep).length],
      strideList y nstep⟩ true true false ConvMode.full =
        PyResult.ok (List.replicate (strideList y nstep).length 0) := by
    rw [autocorrelation_fft_rank1 _ hm1]
    exact acfPipeline_zero_of_demeaned_zero _ true hysne hz
  have hrep : List.replicate (strideList y nstep).length (0:ℚ) =
      0 :: List.replicate ((strideList y nstep).length - 1) 0 := by
    conv_lhs => rw [show (strideList y nstep).length =
      ((strideList y nstep).length - 1) + 1 by omega]
    rw [List.replicate_succ]
  have hxslen : (strideList x nstep).length =
      (strideList y nstep).length := by
    simp [strideList, hxy]
  have h0lt : 0 < (strideList x nstep).length := by omega
  have hxs0 : (strideList x nstep)[0]? =
      some ((strideList x nstep).getD 0 0) := by
    rw [List.getElem?_eq_getElem h0lt, List.getD_eq_getElem _ 0 h0lt]
  have hfind : (0 :: List.replicate ((strideList y nstep).length - 1)
      (0:ℚ)).findIdx? (fun v => v ≤ 0) = some 0 := by
    rw [List.findIdx?_cons]
    simp
  simp only [tcorrel, if_neg (not_not_intro hxy), hacf, hrep,
    List.head?_cons, hfind, hxs0, List.take_zero, List.map_nil]
  refine ⟨_, rfl, ?_, ?_⟩
  · rfl
  · show 2 * npSimps [] [] * 0 / (x.getLastD 0 - x.headD 0) = 0
    rw [mul_zero, zero_div]

/-- C3 witness. -/
theorem tcorrel_zero_acf_witness :
    ∃ r, tcorrel [0, 1, 2] [7, 7, 7] 1 false = PyResult.ok r ∧
      r.tc = 0 ∧ r.sigma2 = 0 :=
  tcorrel_zero_acf [0, 1, 2] [7, 7, 7] 7 1 false (by decide) (by decide)
    (by simp) (by decide) (by show (2:ℚ) - 0 ≠ 0; norm_num)

/-- C8 (amended): `smooth` preserves the sequence length for every valid odd
window length `w` with `3 ≤ w ≤ len(x)`; for `w < 3` it returns `x` unchanged
exactly in the odd case `w = 1` (on nonempty input) — the validation order
tests evenness before the `w < 3` no-op, so even `w < 3` raises `ValueError`
instead (see the counterexample). -/
theorem smooth_length_preserved_and_noop :
    (∀ (f : String → Int → List ℚ) (x : List ℚ) (wl : Int),
        wl % 2 = 1 → 3 ≤ wl → wl ≤ (x.length : Int) →
        ∃ y, smooth f x wl (SmoothWindow.name "flat") = PyResult.ok y ∧
          y.length = x.length) ∧
    (∀ (f : String → Int → List ℚ) (x : List ℚ), x ≠ [] →
        smooth f x 1 (SmoothWindow.name "flat") = PyResult.ok x) := by
  constructor
  · intro f x wl hodd h3 hle
    have hres : resolveWindow f wl (SmoothWindow.name "flat") =
        PyResult.ok (wl, List.replicate wl.toNat 1) := by
      rw [resolveWindow, if_neg (by simp [windowNames]), if_pos rfl,
        npOnes, if_neg (by omega)]
    simp only [smooth, hres]
    rw [if_neg (by omega), if_neg (by omega), if_neg (by omega)]
    refine ⟨_, rfl, ?_⟩
    have hn3 : 3 ≤ wl.toNat := by omega
    have hnodd : wl.toNat % 2 = 1 := by omega
    have hnle : wl.toNat ≤ x.length := by omega
    simp only [npFftconvolve, List.length_take, List.length_drop,
      length_centered, length_npConvolveFull, List.length_append,
      List.length_reverse, List.length_map, List.length_replicate]
    omega
  · intro f x hx
    have hres : resolveWindow f 1 (SmoothWindow.name "flat") =
        PyResult.ok (1, List.replicate (1:Int).toNat 1) := by
      rw [resolveWindow, if_neg (by simp [windowNames]), if_pos rfl,
        npOnes, if_neg (by omega)]
    have hlen : 1 ≤ x.length := List.length_pos.mpr hx
    simp only [smooth, hres]
    rw [if_neg (by omega), if_neg (by omega), if_pos (by omega)]

/-- C8 (counterexample): `smooth(x, 2)` with the default window on `[1,2,3]`
has window length `2 < 3`, but instead of returning `x` unchanged it raises
the odd-length `ValueError` (the evenness check runs before the `w < 3`
no-op return). -/
theorem smooth_even_window_raises :
    smooth (fun _ _ => []) [1, 2, 3] 2 (SmoothWindow.name "flat") =
        PyResult.error PyErr.valueError ∧ (2:Int) < 3 := by
  constructor
  · decide
  · decide

/-- C8 witness. -/
theorem smooth_length_preserved_and_noop_witness :
    (∃ y, smooth (fun _ _ => []) [1, 2, 3] 3 (SmoothWindow.name "flat") =
        PyResult.ok y ∧ y.length = [(1:ℚ), 2, 3].length) ∧
      smooth (fun _ _ => []) [(1:ℚ), 2] 1 (SmoothWindow.name "flat") =
        PyResult.ok [1, 2] :=
  ⟨smooth_length_preserved_and_noop.1 (fun _ _ => []) [1, 2, 3] 3 (by decide)
      (by decide) (by decide),
    smooth_length_preserved_and_noop.2 (fun _ _ => []) [(1:ℚ), 2] (by decide)⟩

theorem allocA_snd (st : Store) (v : List ℚ) :
    (allocA st v).2 = st.length := rfl

theorem length_allocA (st : Store) (v : List ℚ) :
    (allocA st v).1.length = st.length + 1 := by
  simp [allocA]

theorem length_writeA (st : Store) (r : Nat) (v : List ℚ) :
    (writeA st r v).length = st.length := by
  simp [writeA]

theorem readA_allocA (st : Store) (v : List ℚ) (p : Nat) (h : p < st.length) :
    readA (allocA st v).1 p = readA st p := by
  simp only [readA, allocA, List.concat_eq_append, List.getD_eq_getElem?_getD]
  rw [List.getElem?_append]
  simp [h]

theorem readA_writeA_ne (st : Store) (r : Nat) (v : List ℚ) (p : Nat)
    (h : r ≠ p) :
    readA (writeA st r v) p = readA st p := by
  simp only [readA, writeA, List.getD_eq_getElem?_getD,
    List.getElem?_set_ne h]

theorem readA_acfStoreRest (st : Store) (sref : Nat) (sq : List Nat)
    (rm pc nz : Bool) (mode : ConvMode) (p : Nat) (h : p < st.length) :
    readA (acfStoreRest st sref sq rm pc nz mode).1 p = readA st p := by
  rcases sq with _ | ⟨n, _ | ⟨m, rest⟩⟩
  · rfl
  · simp only [acfStoreRest]
    split
    · split
      · -- ac.head? = none
        split
        · rw [readA_writeA_ne _ _ _ _ (by rw [allocA_snd]; omega),
            readA_allocA _ _ _ h]
        · rw [readA_allocA _ _ _ h]
      · -- ac.head? = some a0: a final allocation on top
        rw [readA_allocA]
        · split
          · rw [readA_writeA_ne _ _ _ _ (by rw [allocA_snd]; omega),
              readA_allocA _ _ _ h]
          · rw [readA_allocA _ _ _ h]
        · split
          · rw [length_writeA, length_allocA]
            omega
          · rw [length_allocA]
            omega
    · rw [readA_allocA _ _ _ h]
  · rfl

/-- C10: `autocorrelation_fft` never mutates the caller's input buffer, under
any combination of options: both branches convert the input with
`astype(float)`, which copies, before any in-place operation, so every write
lands in a buffer allocated after the call began. -/
theorem autocorrelation_fft_preserves_input (st : Store) (shape : List Nat)
    (p : Nat) (rm pc nz : Bool) (mode : ConvMode) (h : p < st.length) :
    readA (autocorrelation_fftStore st shape p rm pc nz mode).1 p =
      readA st p := by
  cases rm with
  | true =>
    simp only [autocorrelation_fftStore]
    split
    · rfl
    · rw [if_pos trivial, readA_acfStoreRest]
      · rw [readA_writeA_ne _ _ _ _ (by rw [allocA_snd, length_allocA]; omega),
          readA_allocA, readA_allocA _ _ _ h]
        rw [length_allocA]
        omega
      · rw [length_writeA, length_allocA, length_allocA]
        omega
  | false =>
    simp only [autocorrelation_fftStore]
    split
    · rfl
    · rw [if_neg (by simp), readA_acfStoreRest]
      · rw [readA_allocA _ _ _ h]
      · rw [length_allocA]
        omega

/-- C10 witness. -/
theorem autocorrelation_fft_preserves_input_witness :
    readA (autocorrelation_fftStore [[1, 2]] [2] 0 true true false
        ConvMode.full).1 0 = readA [[1, 2]] 0 :=
  autocorrelation_fft_preserves_input [[1, 2]] [2] 0 true true false
    ConvMode.full (by decide)
